import Mathlib

/-!
Verification development for the `reddit_social_listening` scraper
(`src/reddit_social_listening/scraper.py`).

The Python module is shallowly embedded below.  Remote I/O is modelled by
oracles: a search oracle `Nat → Option SearchPage` maps the index of an
outbound request to the (truthy) decoded payload it produced, `none` standing
for an absent result from `request_json` or a falsy payload; the request-level
oracle `Nat → RemoteResponse α` maps an attempt number to the network outcome
of that attempt.  Wall-clock time is a logical clock (`Int`), and
`time.sleep` advances it.  Python string lists sorted with `sorted(set(...))`
are modelled with `List.insertionSort` over deduplicated lists, Python dicts
keyed by `post_id` with association lists that preserve insertion order, and
`raise ValueError` with `Except.error`.
-/

namespace RedditScraper

/-- `MIN_REQUEST_DELAY_SECONDS = 6.0` from the module header, on the logical
clock. -/
def MIN_REQUEST_DELAY_SECONDS : Int := 6

/-- `MAX_RETRIES = 3` from the module header. -/
def MAX_RETRIES : Nat := 3

/-- The fixed set accepted by `search_subreddit_keyword`'s `time_filter`
validation. -/
def VALID_TIME_FILTERS : List String := ["hour", "day", "week", "month", "year", "all"]

/-- Python truthiness of an optional string (`None` and `""` are falsy). -/
def truthyStr : Option String → Bool
  | none => false
  | some s => !(s == "")

/-- The pacing state: the logical wall clock and the module-global
`_LAST_REQUEST_TS` (0 plays the role of Python's falsy initial `0.0`). -/
structure PacerState where
  clock : Int
  last : Int
deriving DecidableEq

/-- `_enforce_min_delay`: if `_LAST_REQUEST_TS` is truthy and less than the
minimum delay has elapsed, sleep for the remainder (advancing the clock);
then stamp `_LAST_REQUEST_TS` with the current time. -/
def enforce_min_delay (s : PacerState) : PacerState :=
  let elapsed := s.clock - s.last
  if s.last ≠ 0 ∧ elapsed < MIN_REQUEST_DELAY_SECONDS then
    { clock := s.clock + (MIN_REQUEST_DELAY_SECONDS - elapsed)
      last := s.clock + (MIN_REQUEST_DELAY_SECONDS - elapsed) }
  else
    { clock := s.clock, last := s.clock }

/-- Run a sequence of calls to `_enforce_min_delay`; before each call the
ambient clock advances by the given delta, and the timestamp at which the
corresponding outbound request starts (`_LAST_REQUEST_TS` after the call) is
recorded. -/
def pacerRun (s : PacerState) : List Nat → List Int
  | [] => []
  | d :: ds =>
    let s' := enforce_min_delay { clock := s.clock + (d : Int), last := s.last }
    s'.last :: pacerRun s' ds

/-- Outcome of one physical GET attempt inside `request_json`:
a `requests.RequestException`, or a response with a status code, an optional
decoded JSON body (`none` on status 200 models a body that fails to parse as
JSON), and the raw text. -/
inductive RemoteResponse (α : Type) where
  | exn
  | resp (status : Nat) (body : Option α) (text : String)

/-- One `_append_scrape_log` event written from the body of `request_json`
(`progressRetryBackoff` is the `_emit_progress` call, which also appends a
structured entry). -/
inductive LogEvent where
  | errorRequestException (attempt : Nat)
  | progressRetryBackoff (attempt : Nat)
  | errorInvalidJson (attempt : Nat)
  | warnForbiddenNotFound (attempt : Nat) (status : Nat)
  | warnRateLimited (attempt : Nat)
  | errorUnexpectedStatus (attempt : Nat) (status : Nat)
deriving DecidableEq

/-- The attempt loop of `request_json` (`for attempt in range(1, MAX_RETRIES + 1)`),
recursing over the remaining attempt numbers.  Returns the result and the log
entries appended by the body of `request_json`.  The source detects the final
attempt by `attempt == MAX_RETRIES`, reproduced literally here; falling out
of the loop (the trailing `return None`) is the `[]` case. -/
def requestAttempts (oracle : Nat → RemoteResponse α) :
    List Nat → List LogEvent → Option α × List LogEvent
  | [], log => (none, log)
  | attempt :: rest, log =>
    match oracle attempt with
    | .exn =>
      let log := log ++ [.errorRequestException attempt]
      if attempt = MAX_RETRIES then (none, log)
      else requestAttempts oracle rest (log ++ [.progressRetryBackoff attempt])
    | .resp status body _text =>
      if status = 200 then
        match body with
        | some payload => (some payload, log)
        | none => (none, log ++ [.errorInvalidJson attempt])
      else if status = 403 ∨ status = 404 then
        (none, log ++ [.warnForbiddenNotFound attempt status])
      else if status = 429 then
        let log := log ++ [.warnRateLimited attempt]
        if attempt = MAX_RETRIES then (none, log)
        else requestAttempts oracle rest log
      else
        let log := log ++ [.errorUnexpectedStatus attempt status]
        if attempt = MAX_RETRIES then (none, log)
        else requestAttempts oracle rest log

/-- `request_json`: run the attempt loop over `range(1, MAX_RETRIES + 1)` with
an empty log. -/
def request_json (oracle : Nat → RemoteResponse α) : Option α × List LogEvent :=
  requestAttempts oracle ((List.range MAX_RETRIES).map (· + 1)) []

/-- The remote-service conditions named by the spec under which `request_json`
degrades: connection failure on every attempt up to the retry ceiling; an
HTTP 403 or 404; HTTP 429 on every attempt up to the retry ceiling; or a 200
response whose body is not valid JSON. -/
def DegradedRemote (oracle : Nat → RemoteResponse α) : Prop :=
  (∀ attempt, oracle attempt = .exn)
  ∨ (∃ body text, oracle 1 = .resp 403 body text)
  ∨ (∃ body text, oracle 1 = .resp 404 body text)
  ∨ (∀ attempt, ∃ body text, oracle attempt = .resp 429 body text)
  ∨ (∃ text, oracle 1 = .resp 200 none text)

/-- The fields `normalize_post` reads from a raw post dict (`raw_post.get(...)`);
`none` models a missing key. -/
structure RawPost where
  id : Option String
  subreddit : Option String
  title : Option String
  selftext : Option String
  score : Option Int
  num_comments : Option Int
  created_utc : Option Int
  url : Option String
deriving DecidableEq

/-- A normalized post record as built by `normalize_post`. -/
structure Post where
  post_id : Option String
  subreddit : Option String
  title : String
  selftext : String
  score : Int
  num_comments : Int
  created_utc : Option Int
  url : Option String
  search_keyword : List String
  time_filter : List String
deriving DecidableEq

/-- `normalize_post`: map one raw post into the downstream schema, with the
source's defaults, seeding the provenance lists as singletons. -/
def normalize_post (raw_post : RawPost) (search_keyword time_filter : String) : Post :=
  { post_id := raw_post.id
    subreddit := raw_post.subreddit
    title := raw_post.title.getD ""
    selftext := raw_post.selftext.getD ""
    score := raw_post.score.getD 0
    num_comments := raw_post.num_comments.getD 0
    created_utc := raw_post.created_utc
    url := raw_post.url
    search_keyword := [search_keyword]
    time_filter := [time_filter] }

/-- Python's `sorted(set(left).union(set(right)))`: the sorted list of the
distinct elements of the two lists. -/
def sortedUnion (left right : List String) : List String :=
  List.insertionSort (· ≤ ·) ((left ++ right).dedup)

/-- `merge_post_metadata`: replace the two provenance fields of `existing`
with the sorted union of both records' values; all other fields are kept. -/
def merge_post_metadata (existing incoming : Post) : Post :=
  { existing with
    search_keyword := sortedUnion existing.search_keyword incoming.search_keyword
    time_filter := sortedUnion existing.time_filter incoming.time_filter }

/-- `by_id[post_id] = merge_post_metadata(by_id[post_id], post)`: the in-place
dict update, applied entry-wise to the association list. -/
def dedupUpdate (id : String) (post : Post) (kv : String × Post) : String × Post :=
  if kv.1 = id then (kv.1, merge_post_metadata kv.2 post) else kv

/-- One iteration of the loop in `deduplicate_posts`: skip falsy ids, insert
first occurrences at the end (dict insertion order), merge later ones. -/
def dedupStep (acc : List (String × Post)) (post : Post) : List (String × Post) :=
  match post.post_id with
  | none => acc
  | some id =>
    if id = "" then acc
    else if acc.any (fun kv => kv.1 == id) then acc.map (dedupUpdate id post)
    else acc ++ [(id, post)]

/-- The `by_id` dict built by `deduplicate_posts` over a post list. -/
def dedupAcc (posts : List Post) : List (String × Post) :=
  posts.foldl dedupStep []

/-- `deduplicate_posts`: the values of `by_id` in insertion order. -/
def deduplicate_posts (posts : List Post) : List Post :=
  (dedupAcc posts).map Prod.snd

/-- One truthy search payload: `payload["data"]["children"]` (each child's
`data` dict) and `payload["data"]["after"]`. -/
structure SearchPage where
  children : List RawPost
  after : Option String

/-- The number of iterations of `for page in range(1, max(1, pages) + 1)`. -/
def pageIters (pages : Int) : Nat := (max 1 pages).toNat

/-- The page loop of `search_subreddit_keyword`.  `reqs` counts the outbound
`request_json` calls issued so far (it indexes the oracle); the loop breaks on
an absent/falsy payload and on a falsy next cursor, and normalizes and keeps
the children with truthy ids. -/
def searchGo (oracle : Nat → Option SearchPage) (keyword time_filter : String) :
    Nat → Nat → List Post → List Post × Nat
  | 0, reqs, collected => (collected, reqs)
  | iters + 1, reqs, collected =>
    match oracle reqs with
    | none => (collected, reqs + 1)
    | some page =>
      let newPosts :=
        (page.children.map fun raw => normalize_post raw keyword time_filter).filter
          fun p => truthyStr p.post_id
      let collected := collected ++ newPosts
      match page.after with
      | none => (collected, reqs + 1)
      | some a =>
        if a = "" then (collected, reqs + 1)
        else searchGo oracle keyword time_filter iters (reqs + 1) collected

/-- `search_subreddit_keyword`: validate the time filter (Python raises
`ValueError`, modelled by `Except.error`), then walk the pages.  Returns the
collected posts and the total request count. -/
def search_subreddit_keyword (oracle : Nat → Option SearchPage) (keyword time_filter : String)
    (pages : Int) (startReq : Nat) : Except Unit (List Post × Nat) :=
  if time_filter ∈ VALID_TIME_FILTERS then
    .ok (searchGo oracle keyword time_filter (pageIters pages) startReq [])
  else .error ()

/-- The inner loop of `scrape_subreddit_keywords` over `time_filters` for one
keyword.  On a `ValueError` the number of requests already issued is reported
in the error. -/
def scrapeFilters (oracle : Nat → Option SearchPage) (keyword : String) (pages : Int) :
    List String → Nat → List Post → Except Nat (List Post × Nat)
  | [], reqs, acc => .ok (acc, reqs)
  | tf :: rest, reqs, acc =>
    match search_subreddit_keyword oracle keyword tf pages reqs with
    | .error _ => .error reqs
    | .ok pr => scrapeFilters oracle keyword pages rest pr.2 (acc ++ pr.1)

/-- The outer loop of `scrape_subreddit_keywords` over `keywords`. -/
def scrapeKeywords (oracle : Nat → Option SearchPage) (time_filters : List String) (pages : Int) :
    List String → Nat → List Post → Except Nat (List Post × Nat)
  | [], reqs, acc => .ok (acc, reqs)
  | kw :: rest, reqs, acc =>
    match scrapeFilters oracle kw pages time_filters reqs acc with
    | .error r => .error r
    | .ok pr => scrapeKeywords oracle time_filters pages rest pr.2 pr.1

/-- `scrape_subreddit_keywords`: the keyword × time-filter cross product,
deduplicated once at the end. -/
def scrape_subreddit_keywords (oracle : Nat → Option SearchPage)
    (keywords time_filters : List String) (pages : Int) : Except Nat (List Post × Nat) :=
  match scrapeKeywords oracle time_filters pages keywords 0 [] with
  | .error r => .error r
  | .ok pr => .ok (deduplicate_posts pr.1, pr.2)

/-- One comment object's `data` dict: the fields `fetch_post_comments` reads.
`replies := none` models a `replies` value that is not a dict (Reddit sends
`""`); `replies := some children` models a dict with that `children` list. -/
inductive CommentNode where
  | mk (id : Option String) (parent_id : Option String) (body : Option String)
      (score : Option Int) (created_utc : Option Int)
      (replies : Option (List CommentNode))

/-- A flattened comment record as built by `fetch_post_comments`. -/
structure CommentRecord where
  comment_id : Option String
  parent_id : Option String
  body : String
  score : Int
  created_utc : Option Int
  depth : Nat
deriving DecidableEq

/-- The record built for one direct reply (depth 1), `none` when the reply's
id is falsy and the source's `continue` skips it. -/
def replyRecord : CommentNode → Option CommentRecord
  | .mk rid rpid rbody rscore rcutc _ =>
    if truthyStr rid then
      some { comment_id := rid, parent_id := rpid, body := rbody.getD ""
             score := rscore.getD 0, created_utc := rcutc, depth := 1 }
    else none

/-- The body of the `for comment in comments_listing` loop: skip falsy ids,
append the depth-0 record, then append the records of the node's direct
replies.  The replies of a reply are never inspected. -/
def commentStep (acc : List CommentRecord) : CommentNode → List CommentRecord
  | .mk cid cpid cbody cscore ccutc replies =>
    if truthyStr cid then
      let acc' := acc ++
        [{ comment_id := cid, parent_id := cpid, body := cbody.getD ""
           score := cscore.getD 0, created_utc := ccutc, depth := 0 }]
      match replies with
      | some reply_children => acc' ++ reply_children.filterMap replyRecord
      | none => acc'
    else acc

/-- The extraction loop of `fetch_post_comments` over the comment listing. -/
def extractComments (listing : List CommentNode) : List CommentRecord :=
  listing.foldl commentStep []

/-- One element of the two-element comments payload:
`payload[i]["data"]["children"]`. -/
structure CommentListing where
  children : List CommentNode

/-- The decoded comments payload: `notList` models an absent payload, a falsy
payload, or a payload that is not a list; `list items` a JSON array. -/
inductive CommentsPayload where
  | notList
  | list (items : List CommentListing)

/-- `fetch_post_comments` after the `request_json` call: payloads that are
absent, not a list, or shorter than two elements yield no comments; otherwise
the second element's children are walked. -/
def fetch_post_comments : CommentsPayload → List CommentRecord
  | .notList => []
  | .list [] => []
  | .list [_] => []
  | .list (_ :: second :: _) => extractComments second.children

/-- Drop the reply lists of a node (used to erase depth-2-and-deeper
content). -/
def stripReplies : CommentNode → CommentNode
  | .mk rid rpid rbody rscore rcutc _ => .mk rid rpid rbody rscore rcutc none

/-- Erase everything nested deeper than one level below a top-level comment:
each direct reply keeps its fields but loses its own replies. -/
def pruneNode : CommentNode → CommentNode
  | .mk cid cpid cbody cscore ccutc replies =>
    .mk cid cpid cbody cscore ccutc (replies.map fun children => children.map stripReplies)

/-- Erase all depth-≥-2 content from a comments payload. -/
def prunePayload : CommentsPayload → CommentsPayload
  | .notList => .notList
  | .list items => .list (items.map fun listing => ⟨listing.children.map pruneNode⟩)

/-- Agreement of two post records on every field other than the two
provenance lists `search_keyword` and `time_filter`. -/
def frameAgrees (q p : Post) : Prop :=
  q.post_id = p.post_id ∧ q.subreddit = p.subreddit ∧ q.title = p.title
  ∧ q.selftext = p.selftext ∧ q.score = p.score ∧ q.num_comments = p.num_comments
  ∧ q.created_utc = p.created_utc ∧ q.url = p.url

/-- Two normalized posts with distinct ids, used to exercise deduplication. -/
def c4Posts : List Post :=
  [{ post_id := some "a", subreddit := some "r", title := "t1", selftext := "s1", score := 1,
     num_comments := 2, created_utc := some 3, url := some "u1",
     search_keyword := ["pricing"], time_filter := ["year"] },
   { post_id := some "b", subreddit := some "r", title := "t2", selftext := "s2", score := 4,
     num_comments := 5, created_utc := some 6, url := some "u2",
     search_keyword := ["support"], time_filter := ["month"] }]

/-- A single normalized post with a truthy id. -/
def c9Post : Post :=
  { post_id := some "a", subreddit := some "r", title := "t", selftext := "s", score := 7,
    num_comments := 8, created_utc := some 9, url := some "u",
    search_keyword := ["pricing"], time_filter := ["year"] }

/-- A post whose id is absent (falsy), which `deduplicate_posts` must drop. -/
def c10FalsyPost : Post :=
  { post_id := none, subreddit := some "r", title := "x", selftext := "y", score := 0,
    num_comments := 0, created_utc := none, url := none,
    search_keyword := ["pricing"], time_filter := ["year"] }

/-- A post with a truthy id, kept by `deduplicate_posts`. -/
def c10Post : Post :=
  { post_id := some "b", subreddit := some "r", title := "t", selftext := "s", score := 1,
    num_comments := 1, created_utc := some 2, url := some "u",
    search_keyword := ["support"], time_filter := ["month"] }

/-- The input mixing a falsy-id post with a truthy-id post. -/
def c10Posts : List Post := [c10FalsyPost, c10Post]

/-- A top-level comment with one direct reply that itself has a deeper
reply (depth 2), which the extractor must never visit. -/
def c8Node : CommentNode :=
  .mk (some "c1") (some "t3_p") (some "top") (some 5) (some 10)
    (some [.mk (some "c2") (some "t1_c1") (some "reply") (some 2) (some 11)
      (some [.mk (some "c3") (some "t1_c2") (some "deep") (some 1) (some 12) none])])

/-- A well-shaped two-element comments payload containing `c8Node`. -/
def c8Payload : CommentsPayload := .list [⟨[]⟩, ⟨[c8Node]⟩]

/-- The depth-0 record extracted from `c8Node`. -/
def c8Record : CommentRecord :=
  { comment_id := some "c1", parent_id := some "t3_p", body := "top", score := 5,
    created_utc := some 10, depth := 0 }

/-- A server whose first page has zero children but a non-empty next cursor,
and whose second page ends pagination. -/
def c1Oracle : Nat → Option SearchPage := fun n =>
  if n = 0 then some { children := [], after := some "abc" }
  else some { children := [], after := none }

/-- A server that never answers (`request_json` degrades to absent). -/
def c2Oracle : Nat → Option SearchPage := fun _ => none

/-- A server that always reports a non-empty next cursor. -/
def c6Oracle : Nat → Option SearchPage := fun _ =>
  some { children := [], after := some "cur" }

/-! ### Pacing Controller (claim C5) -/

theorem enforce_min_delay_stamps (s : PacerState) :
    (enforce_min_delay s).last = (enforce_min_delay s).clock := by
  simp only [enforce_min_delay]
  split <;> rfl

theorem enforce_min_delay_first_call (s : PacerState) (h : s.last = 0) :
    enforce_min_delay s = { clock := s.clock, last := s.clock } := by
  simp only [enforce_min_delay]
  split
  · next hcond => exact absurd h hcond.1
  · rfl

theorem enforce_min_delay_gap (s : PacerState) (h : s.last ≠ 0) :
    s.last + MIN_REQUEST_DELAY_SECONDS ≤ (enforce_min_delay s).last := by
  simp only [enforce_min_delay]
  split
  · next hcond =>
    simp only [MIN_REQUEST_DELAY_SECONDS] at *
    omega
  · next hcond =>
    simp only [not_and, not_lt, MIN_REQUEST_DELAY_SECONDS] at hcond ⊢
    have := hcond h
    omega

theorem pacerRun_chain (ds : List Nat) :
    ∀ s : PacerState, 0 < s.last →
      List.Chain (fun a b => a + MIN_REQUEST_DELAY_SECONDS ≤ b) s.last (pacerRun s ds) := by
  induction ds with
  | nil => intro s _; exact List.Chain.nil
  | cons d ds ih =>
    intro s hs
    rw [pacerRun, List.chain_cons]
    set s1 := enforce_min_delay { clock := s.clock + (d : Int), last := s.last } with hs1
    have hgap : s.last + MIN_REQUEST_DELAY_SECONDS ≤ s1.last :=
      enforce_min_delay_gap _ (show s.last ≠ 0 by omega)
    refine ⟨hgap, ih s1 ?_⟩
    have : (0:Int) < MIN_REQUEST_DELAY_SECONDS := by norm_num [MIN_REQUEST_DELAY_SECONDS]
    omega

/-- C5: across any number of consecutive calls to `_enforce_min_delay` (with a
positive logical start clock and the last-request timestamp initially unset),
consecutive outbound request start times are never less than the configured
minimum delay of 6 time units apart; the first-ever call imposes no wait (the
clock does not advance); and the last-request timestamp is stamped with the
current time after every call. -/
theorem c5_pacing_min_delay (s₀ : PacerState) (ds : List Nat)
    (hinit : s₀.last = 0) (hclock : 0 < s₀.clock) :
    List.Chain' (fun a b => a + MIN_REQUEST_DELAY_SECONDS ≤ b) (pacerRun s₀ ds)
    ∧ (∀ s : PacerState, s.last = 0 → enforce_min_delay s = { clock := s.clock, last := s.clock })
    ∧ ∀ s : PacerState, (enforce_min_delay s).last = (enforce_min_delay s).clock := by
  refine ⟨?_, enforce_min_delay_first_call, enforce_min_delay_stamps⟩
  cases ds with
  | nil => simp [pacerRun]
  | cons d ds =>
    simp only [pacerRun]
    have h1 : enforce_min_delay { clock := s₀.clock + (d : Int), last := s₀.last }
        = { clock := s₀.clock + (d : Int), last := s₀.clock + (d : Int) } := by
      simpa using
        enforce_min_delay_first_call { clock := s₀.clock + (d : Int), last := s₀.last } hinit
    rw [h1]
    exact pacerRun_chain ds _ (show (0:Int) < s₀.clock + (d : Int) by omega)

theorem c5_pacing_min_delay_witness :
    ({ clock := 1, last := 0 } : PacerState).last = 0
    ∧ 0 < ({ clock := 1, last := 0 } : PacerState).clock
    ∧ List.Chain' (fun a b => a + MIN_REQUEST_DELAY_SECONDS ≤ b)
        (pacerRun { clock := 1, last := 0 } [5, 2, 9]) :=
  ⟨rfl, by decide, (c5_pacing_min_delay { clock := 1, last := 0 } [5, 2, 9] rfl (by decide)).1⟩

/-! ### Request Executor (claims C3 and C7) -/

theorem request_json_eq_attempts (oracle : Nat → RemoteResponse α) :
    request_json oracle = requestAttempts oracle [1, 2, 3] [] := rfl

/-- C3: for every request, `request_json` returns an absent result — and, being
a total function of the response oracle, never propagates an exception — under
each remote condition: connection failure on all attempts up to the retry
ceiling, HTTP 403, HTTP 404, HTTP 429 on all attempts up to the retry ceiling,
and a 200 response whose body is not valid JSON. -/
theorem c3_request_json_degrades_to_none (oracle : Nat → RemoteResponse α)
    (h : DegradedRemote oracle) : (request_json oracle).1 = none := by
  rw [request_json_eq_attempts]
  rcases h with hexn | ⟨b, t, h1⟩ | ⟨b, t, h1⟩ | h429 | ⟨t, h1⟩
  · simp [requestAttempts, hexn 1, hexn 2, hexn 3, MAX_RETRIES]
  · simp [requestAttempts, h1, MAX_RETRIES]
  · simp [requestAttempts, h1, MAX_RETRIES]
  · obtain ⟨b1, t1, h1⟩ := h429 1
    obtain ⟨b2, t2, h2⟩ := h429 2
    obtain ⟨b3, t3, h3⟩ := h429 3
    simp [requestAttempts, h1, h2, h3, MAX_RETRIES]
  · simp [requestAttempts, h1, MAX_RETRIES]

theorem c3_request_json_degrades_to_none_witness :
    DegradedRemote (fun _ => (RemoteResponse.exn : RemoteResponse Unit))
    ∧ (request_json (fun _ => (RemoteResponse.exn : RemoteResponse Unit))).1 = none :=
  ⟨Or.inl fun _ => rfl, c3_request_json_degrades_to_none _ (Or.inl fun _ => rfl)⟩

theorem requestAttempts_none_log_grows (oracle : Nat → RemoteResponse α) :
    ∀ (atts : List Nat) (log : List LogEvent), atts.getLast? = some MAX_RETRIES →
      (requestAttempts oracle atts log).1 = none →
      log.length + 1 ≤ ((requestAttempts oracle atts log).2).length := by
  intro atts
  induction atts with
  | nil => intro log hlast _; simp at hlast
  | cons a rest ih =>
    intro log hlast hnone
    have hrest : rest = [] → a = MAX_RETRIES := by
      intro he; subst he; simpa using hlast
    have hlast' : rest ≠ [] → rest.getLast? = some MAX_RETRIES := by
      intro hne
      rcases rest with _ | ⟨b, rest'⟩
      · exact absurd rfl hne
      · rwa [List.getLast?_cons_cons] at hlast
    rcases ho : oracle a with _ | ⟨status, body, text⟩
    · simp only [requestAttempts, ho] at hnone ⊢
      by_cases hA : a = MAX_RETRIES
      · simp [hA]
      · rcases rest with _ | ⟨b, rest'⟩
        · exact absurd (hrest rfl) hA
        · simp only [hA, if_false] at hnone ⊢
          have h2 := ih _ (hlast' (by simp)) hnone
          have h3 : log.length + 2 =
              ((log ++ [LogEvent.errorRequestException a]) ++
                [LogEvent.progressRetryBackoff a]).length := by simp
          omega
    · rcases body with _ | payload <;> simp only [requestAttempts, ho] at hnone ⊢
      · by_cases h200 : status = 200
        · simp [h200]
        · by_cases h403 : status = 403 ∨ status = 404
          · simp [h200, h403]
          · by_cases h429 : status = 429
            · by_cases hA : a = MAX_RETRIES
              · simp [h200, h403, h429, hA]
              · rcases rest with _ | ⟨b, rest'⟩
                · exact absurd (hrest rfl) hA
                · simp [h200, h403, h429, hA] at hnone ⊢
                  have h2 := ih _ (hlast' (by simp)) hnone
                  have h3 : log.length + 1 =
                      (log ++ [LogEvent.warnRateLimited a]).length := by simp
                  omega
            · by_cases hA : a = MAX_RETRIES
              · simp [h200, h403, h429, hA]
              · rcases rest with _ | ⟨b, rest'⟩
                · exact absurd (hrest rfl) hA
                · simp only [h200, h403, h429, hA, if_false] at hnone ⊢
                  have h2 := ih _ (hlast' (by simp)) hnone
                  have h3 : log.length + 1 =
                      (log ++ [LogEvent.errorUnexpectedStatus a status]).length := by simp
                  omega
      · by_cases h200 : status = 200
        · simp [h200] at hnone
        · by_cases h403 : status = 403 ∨ status = 404
          · simp [h200, h403]
          · by_cases h429 : status = 429
            · by_cases hA : a = MAX_RETRIES
              · simp [h200, h403, h429, hA]
              · rcases rest with _ | ⟨b, rest'⟩
                · exact absurd (hrest rfl) hA
                · simp [h200, h403, h429, hA] at hnone ⊢
                  have h2 := ih _ (hlast' (by simp)) hnone
                  have h3 : log.length + 1 =
                      (log ++ [LogEvent.warnRateLimited a]).length := by simp
                  omega
            · by_cases hA : a = MAX_RETRIES
              · simp [h200, h403, h429, hA]
              · rcases rest with _ | ⟨b, rest'⟩
                · exact absurd (hrest rfl) hA
                · simp only [h200, h403, h429, hA, if_false] at hnone ⊢
                  have h2 := ih _ (hlast' (by simp)) hnone
                  have h3 : log.length + 1 =
                      (log ++ [LogEvent.errorUnexpectedStatus a status]).length := by simp
                  omega

/-- C7 fails as stated: a call degraded by connection failures on all three
attempts writes five log entries (one error per attempt plus two retry
progress entries), not exactly one. -/
theorem c7_counterexample :
    (request_json (fun _ => (RemoteResponse.exn : RemoteResponse Unit))).1 = none
    ∧ ((request_json (fun _ => (RemoteResponse.exn : RemoteResponse Unit))).2).length = 5
    ∧ (5 : Nat) ≠ 1 :=
  ⟨rfl, rfl, by decide⟩

/-- C7 amended: every invocation of `request_json` that degrades to an absent
result writes at least one log entry explaining why — one per failure
observation, so retried attempts contribute an entry each — and the degraded
classes resolved on the first attempt without retrying (HTTP 403/404 and
invalid JSON on a 200) write exactly one entry. -/
theorem c7_degraded_logging (oracle : Nat → RemoteResponse α) :
    ((request_json oracle).1 = none → 1 ≤ ((request_json oracle).2).length)
    ∧ (∀ status body text, oracle 1 = .resp status body text →
        status = 403 ∨ status = 404 →
        (request_json oracle).2 = [.warnForbiddenNotFound 1 status])
    ∧ (∀ text, oracle 1 = .resp 200 none text →
        (request_json oracle).2 = [.errorInvalidJson 1]) := by
  refine ⟨fun hnone => ?_, fun status body text h1 h34 => ?_, fun text h1 => ?_⟩
  · have := requestAttempts_none_log_grows oracle [1, 2, 3] [] (by rfl)
      (by rwa [request_json_eq_attempts] at hnone)
    rw [request_json_eq_attempts]
    simpa using this
  · rcases h34 with h | h <;> subst h <;>
      simp [request_json_eq_attempts, requestAttempts, h1, MAX_RETRIES]
  · simp [request_json_eq_attempts, requestAttempts, h1, MAX_RETRIES]

theorem c7_degraded_logging_witness :
    (request_json (fun _ => (RemoteResponse.resp 500 none "" : RemoteResponse Unit))).1 = none
    ∧ 1 ≤ ((request_json (fun _ => (RemoteResponse.resp 500 none "" : RemoteResponse Unit))).2).length
    ∧ (request_json (fun _ => (RemoteResponse.resp 404 none "" : RemoteResponse Unit))).2
        = [.warnForbiddenNotFound 1 404]
    ∧ (request_json (fun _ => (RemoteResponse.resp 200 none "" : RemoteResponse Unit))).2
        = [.errorInvalidJson 1] :=
  ⟨rfl, (c7_degraded_logging _).1 rfl,
    (c7_degraded_logging _).2.1 404 none "" rfl (Or.inr rfl),
    (c7_degraded_logging _).2.2 "" rfl⟩

/-! ### Pagination Walker (claims C1 and C6) -/

theorem searchGo_spec (oracle : Nat → Option SearchPage) (keyword time_filter : String) :
    ∀ (iters startReq : Nat) (acc : List Post),
      startReq ≤ (searchGo oracle keyword time_filter iters startReq acc).2
      ∧ (searchGo oracle keyword time_filter iters startReq acc).2 ≤ startReq + iters
      ∧ (∀ i, startReq ≤ i → i + 1 < (searchGo oracle keyword time_filter iters startReq acc).2 →
          ∃ page a, oracle i = some page ∧ page.after = some a ∧ a ≠ "") := by
  intro iters
  induction iters with
  | zero =>
    intro startReq acc
    simp only [searchGo]
    exact ⟨le_refl _, by omega, fun i hi hlt => by omega⟩
  | succ n ih =>
    intro startReq acc
    rcases ho : oracle startReq with _ | page
    · simp only [searchGo, ho]
      exact ⟨by omega, by omega, fun i hi hlt => by omega⟩
    · rcases ha : page.after with _ | a
      · simp only [searchGo, ho, ha]
        exact ⟨by omega, by omega, fun i hi hlt => by omega⟩
      · by_cases he : a = ""
        · simp only [searchGo, ho, ha, he, if_pos]
          exact ⟨by omega, by omega, fun i hi hlt => by omega⟩
        · simp only [searchGo, ho, ha, he, if_false]
          obtain ⟨ih1, ih2, ih3⟩ := ih (startReq + 1)
            (acc ++ (page.children.map fun raw =>
              normalize_post raw keyword time_filter).filter fun p => truthyStr p.post_id)
          refine ⟨by omega, by omega, fun i hi hlt => ?_⟩
          rcases Nat.eq_or_lt_of_le hi with heq | hgt
          · exact ⟨page, a, heq ▸ ho, ha, he⟩
          · exact ih3 i hgt hlt

/-- C1 fails as stated: against a server whose first page carries zero child
items but a non-empty next cursor, the walker does not terminate after that
page — it issues a second request (total 2 requests, not 1). -/
theorem c1_counterexample :
    search_subreddit_keyword c1Oracle "k" "year" 3 0 = .ok ([], 2) ∧ (2 : Nat) ≠ 1 :=
  ⟨rfl, by decide⟩

/-- C1 amended: the walker terminates a query only on an absent/falsy payload,
an absent/empty next cursor, or the page budget: every request except possibly
the final one was answered by a truthy payload carrying a non-empty next
cursor.  In particular a page with zero children but a non-empty cursor does
not terminate pagination. -/
theorem c1_walker_stops_only_on_falsy_payload_or_cursor (oracle : Nat → Option SearchPage)
    (keyword time_filter : String) (pages : Int) (startReq : Nat)
    (res : List Post) (reqs : Nat)
    (h : search_subreddit_keyword oracle keyword time_filter pages startReq = .ok (res, reqs)) :
    ∀ i, startReq ≤ i → i + 1 < reqs →
      ∃ page a, oracle i = some page ∧ page.after = some a ∧ a ≠ "" := by
  by_cases hv : time_filter ∈ VALID_TIME_FILTERS
  · simp only [search_subreddit_keyword, hv, if_pos, Except.ok.injEq] at h
    have h2 : (searchGo oracle keyword time_filter (pageIters pages) startReq []).2 = reqs := by
      rw [h]
    have := (searchGo_spec oracle keyword time_filter (pageIters pages) startReq []).2.2
    rw [h2] at this
    exact this
  · simp [search_subreddit_keyword, hv] at h

theorem c1_walker_stops_only_on_falsy_payload_or_cursor_witness :
    search_subreddit_keyword c1Oracle "k" "year" 3 0 = .ok ([], 2)
    ∧ ∃ page a, c1Oracle 0 = some page ∧ page.after = some a ∧ a ≠ "" :=
  ⟨rfl, c1_walker_stops_only_on_falsy_payload_or_cursor c1Oracle "k" "year" 3 0 [] 2 rfl 0
    (by omega) (by omega)⟩

/-- C6 fails as stated: with `max_pages = 0` the walker still issues one
request (the source clamps the page count to `max(1, pages)`), so "at most
`max_pages` requests" is violated for non-positive budgets. -/
theorem c6_counterexample :
    search_subreddit_keyword c6Oracle "k" "year" 0 0 = .ok ([], 1)
    ∧ ¬ (1 ≤ (0 : Int).toNat) :=
  ⟨rfl, by decide⟩

/-- C6 amended: for every `max_pages` the walker issues at most
`max(1, max_pages)` requests for a single query, hence at most `max_pages`
requests whenever `max_pages ≥ 1`, even when every page carries a non-empty
next cursor. -/
theorem c6_walker_page_budget (oracle : Nat → Option SearchPage)
    (keyword time_filter : String) (pages : Int) (startReq : Nat)
    (res : List Post) (reqs : Nat)
    (h : search_subreddit_keyword oracle keyword time_filter pages startReq = .ok (res, reqs)) :
    reqs ≤ startReq + pageIters pages
    ∧ (1 ≤ pages → reqs ≤ startReq + pages.toNat) := by
  by_cases hv : time_filter ∈ VALID_TIME_FILTERS
  · simp only [search_subreddit_keyword, hv, if_pos, Except.ok.injEq] at h
    have h2 : (searchGo oracle keyword time_filter (pageIters pages) startReq []).2 = reqs := by
      rw [h]
    have := (searchGo_spec oracle keyword time_filter (pageIters pages) startReq []).2.1
    rw [h2] at this
    refine ⟨this, fun hp => ?_⟩
    have hmax : pageIters pages = pages.toNat := by
      simp only [pageIters, max_eq_right hp]
    omega
  · simp [search_subreddit_keyword, hv] at h

theorem c6_walker_page_budget_witness :
    search_subreddit_keyword c6Oracle "k" "year" 2 0 = .ok ([], 2)
    ∧ 2 ≤ 0 + pageIters 2 ∧ (1 ≤ (2 : Int) → 2 ≤ 0 + (2 : Int).toNat) :=
  ⟨rfl, (c6_walker_page_budget c6Oracle "k" "year" 2 0 [] 2 rfl).1,
    (c6_walker_page_budget c6Oracle "k" "year" 2 0 [] 2 rfl).2⟩

/-! ### Crawl Orchestrator validation (claim C2) -/

theorem scrapeFilters_invalid_raises (oracle : Nat → Option SearchPage)
    (keyword : String) (pages : Int) :
    ∀ (tfs : List String) (reqs : Nat) (acc : List Post),
      (∃ tf ∈ tfs, tf ∉ VALID_TIME_FILTERS) →
      ∃ r, scrapeFilters oracle keyword pages tfs reqs acc = .error r := by
  intro tfs
  induction tfs with
  | nil =>
    rintro reqs acc ⟨tf, htf, _⟩
    simp at htf
  | cons tf rest ih =>
    rintro reqs acc ⟨tf0, hmem, hinv⟩
    by_cases hv : tf ∈ VALID_TIME_FILTERS
    · have hrest : tf0 ∈ rest := by
        rcases List.mem_cons.mp hmem with heq | hr
        · exact absurd (heq ▸ hv) hinv
        · exact hr
      rcases hsg : searchGo oracle keyword tf (pageIters pages) reqs [] with ⟨posts, reqs'⟩
      obtain ⟨r, hr⟩ := ih reqs' (acc ++ posts) ⟨tf0, hrest, hinv⟩
      exact ⟨r, by simp [scrapeFilters, search_subreddit_keyword, hv, hsg, hr]⟩
    · exact ⟨reqs, by simp [scrapeFilters, search_subreddit_keyword, hv]⟩

theorem scrapeKeywords_invalid_raises (oracle : Nat → Option SearchPage)
    (time_filters : List String) (pages : Int)
    (hinv : ∃ tf ∈ time_filters, tf ∉ VALID_TIME_FILTERS) :
    ∀ (kws : List String) (reqs : Nat) (acc : List Post), kws ≠ [] →
      ∃ r, scrapeKeywords oracle time_filters pages kws reqs acc = .error r := by
  intro kws
  cases kws with
  | nil => intro _ _ h; exact absurd rfl h
  | cons k rest =>
    intro reqs acc _
    obtain ⟨r, hr⟩ := scrapeFilters_invalid_raises oracle k pages time_filters reqs acc hinv
    exact ⟨r, by simp [scrapeKeywords, hr]⟩

/-- C2 fails as stated: with keywords `["k"]` and time filters
`["year", "bogus"]`, the valid pair `("k", "year")` issues a request before
the invalid filter is reached, so the `ValueError` is raised only after
network activity (here 1 request, not 0). -/
theorem c2_counterexample :
    scrape_subreddit_keywords c2Oracle ["k"] ["year", "bogus"] 1 = .error 1
    ∧ (1 : Nat) ≠ 0 :=
  ⟨rfl, by decide⟩

/-- C2 amended: if the keyword list is non-empty and any time filter lies
outside the valid set, the crawl raises `ValueError` — it never completes —
and the error surfaces when iteration first reaches an invalid
(keyword, time-filter) pair, before any request for that pair; requests for
earlier valid pairs may already have been issued.  If the first time filter
itself is invalid, the call raises before any request at all. -/
theorem c2_invalid_time_filter_raises (oracle : Nat → Option SearchPage)
    (keywords time_filters : List String) (pages : Int)
    (hkw : keywords ≠ [])
    (hinv : ∃ tf ∈ time_filters, tf ∉ VALID_TIME_FILTERS) :
    (∃ r, scrape_subreddit_keywords oracle keywords time_filters pages = .error r)
    ∧ (∀ tf0 rest, time_filters = tf0 :: rest → tf0 ∉ VALID_TIME_FILTERS →
        scrape_subreddit_keywords oracle keywords time_filters pages = .error 0) := by
  constructor
  · obtain ⟨r, hr⟩ :=
      scrapeKeywords_invalid_raises oracle time_filters pages hinv keywords 0 [] hkw
    exact ⟨r, by simp [scrape_subreddit_keywords, hr]⟩
  · intro tf0 rest htfs htf0
    subst htfs
    rcases keywords with _ | ⟨k, krest⟩
    · exact absurd rfl hkw
    · simp [scrape_subreddit_keywords, scrapeKeywords, scrapeFilters,
        search_subreddit_keyword, htf0]

theorem c2_invalid_time_filter_raises_witness :
    (["k"] : List String) ≠ []
    ∧ (∃ tf ∈ (["bogus"] : List String), tf ∉ VALID_TIME_FILTERS)
    ∧ (∃ r, scrape_subreddit_keywords c2Oracle ["k"] ["bogus"] 1 = .error r)
    ∧ scrape_subreddit_keywords c2Oracle ["k"] ["bogus"] 1 = .error 0 :=
  ⟨by decide, ⟨"bogus", by decide, by decide⟩,
    (c2_invalid_time_filter_raises c2Oracle ["k"] ["bogus"] 1 (by decide)
      ⟨"bogus", by decide, by decide⟩).1,
    (c2_invalid_time_filter_raises c2Oracle ["k"] ["bogus"] 1 (by decide)
      ⟨"bogus", by decide, by decide⟩).2 "bogus" [] rfl (by decide)⟩

/-! ### Deduplicator/Merger (claims C4, C9, C10) -/

theorem mem_sortedUnion {x : String} {l r : List String} :
    x ∈ sortedUnion l r ↔ x ∈ l ∨ x ∈ r := by
  simp [sortedUnion, List.mem_insertionSort, List.mem_dedup]

theorem sortedUnion_sorted (l r : List String) :
    List.Pairwise (· ≤ ·) (sortedUnion l r) :=
  List.sorted_insertionSort _ _

theorem sortedUnion_nodup (l r : List String) : (sortedUnion l r).Nodup :=
  ((List.perm_insertionSort _ _).nodup_iff).mpr (List.nodup_dedup _)

theorem merge_frameAgrees {e p : Post} (i : Post) (h : frameAgrees e p) :
    frameAgrees (merge_post_metadata e i) p := h

theorem frameAgrees_refl (p : Post) : frameAgrees p p :=
  ⟨rfl, rfl, rfl, rfl, rfl, rfl, rfl, rfl⟩

theorem merge_search_keyword (e i : Post) :
    (merge_post_metadata e i).search_keyword = sortedUnion e.search_keyword i.search_keyword :=
  rfl

theorem merge_time_filter (e i : Post) :
    (merge_post_metadata e i).time_filter = sortedUnion e.time_filter i.time_filter :=
  rfl

theorem dedupUpdate_fst (id : String) (post : Post) (kv : String × Post) :
    (dedupUpdate id post kv).1 = kv.1 := by
  unfold dedupUpdate
  split <;> rfl

theorem dedupAcc_append (posts : List Post) (p : Post) :
    dedupAcc (posts ++ [p]) = dedupStep (dedupAcc posts) p := by
  simp [dedupAcc, List.foldl_append]

theorem dedupStep_keys_update (acc : List (String × Post)) (id : String) (post : Post) :
    (acc.map (dedupUpdate id post)).map Prod.fst = acc.map Prod.fst := by
  rw [List.map_map]
  exact List.map_congr_left fun kv _ => dedupUpdate_fst id post kv

theorem dedupAcc_binding (posts : List Post) :
    ∀ kv ∈ dedupAcc posts, kv.2.post_id = some kv.1 ∧ kv.1 ≠ "" := by
  induction posts using List.reverseRecOn with
  | nil => intro kv hkv; simp [dedupAcc] at hkv
  | append_singleton posts p ih =>
    intro kv hkv
    rw [dedupAcc_append] at hkv
    rcases hp : p.post_id with _ | id
    · simp only [dedupStep, hp] at hkv
      exact ih kv hkv
    · simp only [dedupStep, hp] at hkv
      by_cases hid : id = ""
      · rw [if_pos hid] at hkv
        exact ih kv hkv
      · rw [if_neg hid] at hkv
        by_cases hany : (dedupAcc posts).any fun kv => kv.1 == id
        · rw [if_pos hany] at hkv
          obtain ⟨kv0, hkv0, hupd⟩ := List.mem_map.mp hkv
          have hb := ih kv0 hkv0
          unfold dedupUpdate at hupd
          by_cases heq : kv0.1 = id
          · rw [if_pos heq] at hupd
            subst hupd
            exact ⟨hb.1, hb.2⟩
          · rw [if_neg heq] at hupd
            subst hupd
            exact hb
        · rw [if_neg hany] at hkv
          rcases List.mem_append.mp hkv with hin | hnew
          · exact ih kv hin
          · have : kv = (id, p) := by simpa using hnew
            subst this
            exact ⟨hp, hid⟩

theorem dedupAcc_keys_nodup (posts : List Post) :
    ((dedupAcc posts).map Prod.fst).Nodup := by
  induction posts using List.reverseRecOn with
  | nil => simp [dedupAcc]
  | append_singleton posts p ih =>
    rw [dedupAcc_append]
    rcases hp : p.post_id with _ | id
    · simp only [dedupStep, hp]
      exact ih
    · simp only [dedupStep, hp]
      by_cases hid : id = ""
      · rw [if_pos hid]; exact ih
      · rw [if_neg hid]
        by_cases hany : (dedupAcc posts).any fun kv => kv.1 == id
        · rw [if_pos hany, dedupStep_keys_update]
          exact ih
        · rw [if_neg hany]
          have hnotin : id ∉ (dedupAcc posts).map Prod.fst := by
            intro hmem
            obtain ⟨kv, hkv, hfst⟩ := List.mem_map.mp hmem
            exact hany (List.any_eq_true.mpr ⟨kv, hkv, by simp [hfst]⟩)
          rw [List.map_append]
          refine (List.nodup_append).mpr ⟨ih, List.nodup_singleton _, ?_⟩
          intro a ha hb
          simp only [List.map_cons, List.map_nil, List.mem_singleton] at hb
          exact hnotin (hb ▸ ha)

theorem dedupAcc_mem_keys (posts : List Post) :
    ∀ id, id ∈ (dedupAcc posts).map Prod.fst ↔
      ∃ p ∈ posts, p.post_id = some id ∧ id ≠ "" := by
  induction posts using List.reverseRecOn with
  | nil => intro id; simp [dedupAcc]
  | append_singleton posts p ih =>
    intro id
    rw [dedupAcc_append]
    rcases hp : p.post_id with _ | id0
    · simp only [dedupStep, hp]
      rw [ih id]
      constructor
      · rintro ⟨q, hq, hqid⟩
        exact ⟨q, List.mem_append_left _ hq, hqid⟩
      · rintro ⟨q, hq, hqid⟩
        rcases List.mem_append.mp hq with hin | hnew
        · exact ⟨q, hin, hqid⟩
        · have : q = p := by simpa using hnew
          subst this
          rw [hp] at hqid
          exact absurd hqid.1 (by simp)
    · simp only [dedupStep, hp]
      by_cases hid0 : id0 = ""
      · rw [if_pos hid0, ih id]
        constructor
        · rintro ⟨q, hq, hqid⟩
          exact ⟨q, List.mem_append_left _ hq, hqid⟩
        · rintro ⟨q, hq, hqid⟩
          rcases List.mem_append.mp hq with hin | hnew
          · exact ⟨q, hin, hqid⟩
          · have : q = p := by simpa using hnew
            subst this
            rw [hp] at hqid
            have : id = id0 := by
              have := hqid.1
              simpa using this.symm
            exact absurd (this.trans hid0) hqid.2
      · rw [if_neg hid0]
        by_cases hany : (dedupAcc posts).any fun kv => kv.1 == id0
        · rw [if_pos hany, dedupStep_keys_update, ih id]
          constructor
          · rintro ⟨q, hq, hqid⟩
            exact ⟨q, List.mem_append_left _ hq, hqid⟩
          · rintro ⟨q, hq, hqid⟩
            rcases List.mem_append.mp hq with hin | hnew
            · exact ⟨q, hin, hqid⟩
            · have : q = p := by simpa using hnew
              subst this
              rw [hp] at hqid
              have hide : id0 = id := by simpa using hqid.1
              obtain ⟨kv, hkv, hb⟩ := List.any_eq_true.mp hany
              refine (ih id).mp ?_
              refine List.mem_map.mpr ⟨kv, hkv, ?_⟩
              have : kv.1 = id0 := by simpa using hb
              exact this.trans hide
        · rw [if_neg hany, List.map_append]
          simp only [List.map_cons, List.map_nil, List.mem_append, List.mem_singleton]
          rw [ih id]
          constructor
          · rintro (⟨q, hq, hqid⟩ | heq)
            · exact ⟨q, Or.inl hq, hqid⟩
            · subst heq
              exact ⟨p, Or.inr rfl, hp, hid0⟩
          · rintro ⟨q, hq, hqid⟩
            rcases hq with hin | hnew
            · exact Or.inl ⟨q, hin, hqid⟩
            · subst hnew
              rw [hp] at hqid
              exact Or.inr (by simpa using hqid.1.symm)

theorem not_any_keys {acc : List (String × Post)} {id : String}
    (hany : ¬ (acc.any fun kv => kv.1 == id) = true) :
    ∀ kv ∈ acc, kv.1 ≠ id := by
  intro kv hkv heq
  exact hany (List.any_eq_true.mpr ⟨kv, hkv, by simp [heq]⟩)

theorem keys_mem_any {acc : List (String × Post)} {id : String}
    (h : id ∈ acc.map Prod.fst) : (acc.any fun kv => kv.1 == id) = true := by
  obtain ⟨kv, hkv, hfst⟩ := List.mem_map.mp h
  exact List.any_eq_true.mpr ⟨kv, hkv, by simp [hfst]⟩

theorem dedupAcc_field_union (f : Post → List String)
    (hf : ∀ e i x, x ∈ f (merge_post_metadata e i) ↔ x ∈ f e ∨ x ∈ f i) :
    ∀ (posts : List Post), ∀ kv ∈ dedupAcc posts, ∀ x,
      x ∈ f kv.2 ↔ ∃ p ∈ posts, p.post_id = some kv.1 ∧ x ∈ f p := by
  intro posts
  induction posts using List.reverseRecOn with
  | nil => intro kv hkv; simp [dedupAcc] at hkv
  | append_singleton posts p ih =>
    intro kv hkv x
    rw [dedupAcc_append] at hkv
    rcases hp : p.post_id with _ | id0
    · simp only [dedupStep, hp] at hkv
      rw [ih kv hkv x]
      constructor
      · rintro ⟨q, hq, hqid, hx⟩
        exact ⟨q, List.mem_append_left _ hq, hqid, hx⟩
      · rintro ⟨q, hq, hqid, hx⟩
        rcases List.mem_append.mp hq with hin | hnew
        · exact ⟨q, hin, hqid, hx⟩
        · have : q = p := by simpa using hnew
          subst this
          rw [hp] at hqid
          exact absurd hqid (by simp)
    · simp only [dedupStep, hp] at hkv
      by_cases hid0 : id0 = ""
      · rw [if_pos hid0] at hkv
        have hbind := dedupAcc_binding posts kv hkv
        rw [ih kv hkv x]
        constructor
        · rintro ⟨q, hq, hqid, hx⟩
          exact ⟨q, List.mem_append_left _ hq, hqid, hx⟩
        · rintro ⟨q, hq, hqid, hx⟩
          rcases List.mem_append.mp hq with hin | hnew
          · exact ⟨q, hin, hqid, hx⟩
          · have : q = p := by simpa using hnew
            subst this
            rw [hp] at hqid
            have : id0 = kv.1 := by simpa using hqid
            exact absurd (hid0 ▸ this.symm) hbind.2
      · rw [if_neg hid0] at hkv
        by_cases hany : (dedupAcc posts).any fun kv => kv.1 == id0
        · rw [if_pos hany] at hkv
          obtain ⟨kv0, hkv0, hupd⟩ := List.mem_map.mp hkv
          unfold dedupUpdate at hupd
          by_cases heq : kv0.1 = id0
          · rw [if_pos heq] at hupd
            subst hupd
            simp only
            rw [hf, ih kv0 hkv0 x]
            constructor
            · rintro (⟨q, hq, hqid, hx⟩ | hx)
              · exact ⟨q, List.mem_append_left _ hq, hqid, hx⟩
              · exact ⟨p, List.mem_append_right _ (by simp), by rw [hp, heq], hx⟩
            · rintro ⟨q, hq, hqid, hx⟩
              rcases List.mem_append.mp hq with hin | hnew
              · exact Or.inl ⟨q, hin, hqid, hx⟩
              · have : q = p := by simpa using hnew
                subst this
                exact Or.inr hx
          · rw [if_neg heq] at hupd
            subst hupd
            rw [ih kv0 hkv0 x]
            constructor
            · rintro ⟨q, hq, hqid, hx⟩
              exact ⟨q, List.mem_append_left _ hq, hqid, hx⟩
            · rintro ⟨q, hq, hqid, hx⟩
              rcases List.mem_append.mp hq with hin | hnew
              · exact ⟨q, hin, hqid, hx⟩
              · have : q = p := by simpa using hnew
                subst this
                rw [hp] at hqid
                exact absurd (by simpa using hqid : id0 = kv0.1).symm heq
        · rw [if_neg hany] at hkv
          rcases List.mem_append.mp hkv with hin | hnew
          · have hbind := dedupAcc_binding posts kv hin
            have hne : kv.1 ≠ id0 := not_any_keys hany kv hin
            rw [ih kv hin x]
            constructor
            · rintro ⟨q, hq, hqid, hx⟩
              exact ⟨q, List.mem_append_left _ hq, hqid, hx⟩
            · rintro ⟨q, hq, hqid, hx⟩
              rcases List.mem_append.mp hq with hin' | hnew'
              · exact ⟨q, hin', hqid, hx⟩
              · have : q = p := by simpa using hnew'
                subst this
                rw [hp] at hqid
                exact absurd (by simpa using hqid : id0 = kv.1).symm hne
          · have : kv = (id0, p) := by simpa using hnew
            subst this
            simp only
            constructor
            · intro hx
              exact ⟨p, List.mem_append_right _ (by simp), hp, hx⟩
            · rintro ⟨q, hq, hqid, hx⟩
              rcases List.mem_append.mp hq with hin' | hnew'
              · exact absurd (keys_mem_any ((dedupAcc_mem_keys posts id0).mpr
                  ⟨q, hin', hqid, hid0⟩)) hany
              · have : q = p := by simpa using hnew'
                subst this
                exact hx

theorem dedupAcc_first_seen (posts : List Post) :
    ∀ kv ∈ dedupAcc posts,
      ∃ p₀, posts.find? (fun p => p.post_id == some kv.1) = some p₀
        ∧ frameAgrees kv.2 p₀ := by
  induction posts using List.reverseRecOn with
  | nil => intro kv hkv; simp [dedupAcc] at hkv
  | append_singleton posts p ih =>
    intro kv hkv
    rw [dedupAcc_append] at hkv
    rcases hp : p.post_id with _ | id0
    · simp only [dedupStep, hp] at hkv
      obtain ⟨p₀, hfind, hframe⟩ := ih kv hkv
      exact ⟨p₀, by rw [List.find?_append, hfind]; rfl, hframe⟩
    · simp only [dedupStep, hp] at hkv
      by_cases hid0 : id0 = ""
      · rw [if_pos hid0] at hkv
        obtain ⟨p₀, hfind, hframe⟩ := ih kv hkv
        exact ⟨p₀, by rw [List.find?_append, hfind]; rfl, hframe⟩
      · rw [if_neg hid0] at hkv
        by_cases hany : (dedupAcc posts).any fun kv => kv.1 == id0
        · rw [if_pos hany] at hkv
          obtain ⟨kv0, hkv0, hupd⟩ := List.mem_map.mp hkv
          unfold dedupUpdate at hupd
          by_cases heq : kv0.1 = id0
          · rw [if_pos heq] at hupd
            obtain ⟨p₀, hfind, hframe⟩ := ih kv0 hkv0
            subst hupd
            exact ⟨p₀, by rw [List.find?_append, hfind]; rfl, merge_frameAgrees p hframe⟩
          · rw [if_neg heq] at hupd
            obtain ⟨p₀, hfind, hframe⟩ := ih kv0 hkv0
            subst hupd
            exact ⟨p₀, by rw [List.find?_append, hfind]; rfl, hframe⟩
        · rw [if_neg hany] at hkv
          rcases List.mem_append.mp hkv with hin | hnew
          · obtain ⟨p₀, hfind, hframe⟩ := ih kv hin
            exact ⟨p₀, by rw [List.find?_append, hfind]; rfl, hframe⟩
          · have : kv = (id0, p) := by simpa using hnew
            subst this
            refine ⟨p, ?_, frameAgrees_refl p⟩
            have hnone : posts.find? (fun q => q.post_id == some id0) = none := by
              rw [List.find?_eq_none]
              intro q hq hbeq
              have hqid : q.post_id = some id0 := by simpa using hbeq
              exact absurd (keys_mem_any ((dedupAcc_mem_keys posts id0).mpr
                ⟨q, hq, hqid, hid0⟩)) hany
            rw [List.find?_append, hnone]
            simp [List.find?, hp]

theorem dedupAcc_metadata_sorted (posts : List Post)
    (hs : ∀ q ∈ posts, (∃ kw, q.search_keyword = [kw]) ∧ (∃ tf, q.time_filter = [tf])) :
    ∀ kv ∈ dedupAcc posts,
      (List.Pairwise (· ≤ ·) kv.2.search_keyword ∧ kv.2.search_keyword.Nodup)
      ∧ (List.Pairwise (· ≤ ·) kv.2.time_filter ∧ kv.2.time_filter.Nodup) := by
  induction posts using List.reverseRecOn with
  | nil => intro kv hkv; simp [dedupAcc] at hkv
  | append_singleton posts p ih =>
    have hs' : ∀ q ∈ posts, (∃ kw, q.search_keyword = [kw]) ∧ (∃ tf, q.time_filter = [tf]) :=
      fun q hq => hs q (List.mem_append_left _ hq)
    have hp' := hs p (List.mem_append_right _ (by simp))
    intro kv hkv
    rw [dedupAcc_append] at hkv
    rcases hp : p.post_id with _ | id0
    · simp only [dedupStep, hp] at hkv
      exact ih hs' kv hkv
    · simp only [dedupStep, hp] at hkv
      by_cases hid0 : id0 = ""
      · rw [if_pos hid0] at hkv
        exact ih hs' kv hkv
      · rw [if_neg hid0] at hkv
        by_cases hany : (dedupAcc posts).any fun kv => kv.1 == id0
        · rw [if_pos hany] at hkv
          obtain ⟨kv0, hkv0, hupd⟩ := List.mem_map.mp hkv
          unfold dedupUpdate at hupd
          by_cases heq : kv0.1 = id0
          · rw [if_pos heq] at hupd
            subst hupd
            refine ⟨⟨?_, ?_⟩, ?_, ?_⟩
            · rw [merge_search_keyword]; exact sortedUnion_sorted _ _
            · rw [merge_search_keyword]; exact sortedUnion_nodup _ _
            · rw [merge_time_filter]; exact sortedUnion_sorted _ _
            · rw [merge_time_filter]; exact sortedUnion_nodup _ _
          · rw [if_neg heq] at hupd
            subst hupd
            exact ih hs' kv0 hkv0
        · rw [if_neg hany] at hkv
          rcases List.mem_append.mp hkv with hin | hnew
          · exact ih hs' kv hin
          · have : kv = (id0, p) := by simpa using hnew
            subst this
            obtain ⟨⟨kw, hkw⟩, ⟨tf, htf⟩⟩ := hp'
            simp only [hkw, htf]
            exact ⟨⟨List.pairwise_singleton _ _, List.nodup_singleton _⟩,
              List.pairwise_singleton _ _, List.nodup_singleton _⟩

theorem dedupStep_falsy (acc : List (String × Post)) (p : Post)
    (h : truthyStr p.post_id = false) : dedupStep acc p = acc := by
  rcases hp : p.post_id with _ | id
  · simp [dedupStep, hp]
  · rw [hp] at h
    have hid : id = "" := by simpa [truthyStr] using h
    simp [dedupStep, hp, hid]

theorem foldl_dedupStep_filter :
    ∀ (posts : List Post) (acc : List (String × Post)),
      (posts.filter fun p => truthyStr p.post_id).foldl dedupStep acc
        = posts.foldl dedupStep acc := by
  intro posts
  induction posts with
  | nil => intro acc; rfl
  | cons p rest ih =>
    intro acc
    by_cases h : truthyStr p.post_id = true
    · simp only [List.filter_cons, h, if_true, List.foldl_cons]
      exact ih _
    · have hf : truthyStr p.post_id = false := by simpa using h
      simp only [List.filter_cons, hf, Bool.false_eq_true, if_false, List.foldl_cons,
        dedupStep_falsy acc p hf]
      exact ih _

/-- C4: for every finite input of normalized posts (each carrying singleton
provenance lists, as `normalize_post` produces), `deduplicate_posts` returns
at most one record per distinct `post_id`, and each retained record's
`search_keyword` and `time_filter` hold exactly the union of those fields over
all input occurrences of that id, stored sorted and without duplicates. -/
theorem c4_deduplicate_unique_ids_and_union (posts : List Post)
    (hnorm : ∀ p ∈ posts, (∃ kw, p.search_keyword = [kw]) ∧ (∃ tf, p.time_filter = [tf])) :
    ((deduplicate_posts posts).map Post.post_id).Nodup
    ∧ ∀ q ∈ deduplicate_posts posts,
        ((∀ x, x ∈ q.search_keyword ↔ ∃ p ∈ posts, p.post_id = q.post_id ∧ x ∈ p.search_keyword)
          ∧ List.Pairwise (· ≤ ·) q.search_keyword ∧ q.search_keyword.Nodup)
        ∧ ((∀ x, x ∈ q.time_filter ↔ ∃ p ∈ posts, p.post_id = q.post_id ∧ x ∈ p.time_filter)
          ∧ List.Pairwise (· ≤ ·) q.time_filter ∧ q.time_filter.Nodup) := by
  constructor
  · have hmap : (deduplicate_posts posts).map Post.post_id
        = ((dedupAcc posts).map Prod.fst).map some := by
      unfold deduplicate_posts
      rw [List.map_map, List.map_map]
      exact List.map_congr_left fun kv hkv => (dedupAcc_binding posts kv hkv).1
    rw [hmap]
    exact (dedupAcc_keys_nodup posts).map (fun a b h => Option.some.inj h)
  · intro q hq
    obtain ⟨kv, hkv, rfl⟩ := List.mem_map.mp hq
    have hbind := dedupAcc_binding posts kv hkv
    have hsorted := dedupAcc_metadata_sorted posts hnorm kv hkv
    refine ⟨⟨?_, hsorted.1.1, hsorted.1.2⟩, ?_, hsorted.2.1, hsorted.2.2⟩
    · intro x
      rw [hbind.1]
      exact dedupAcc_field_union Post.search_keyword
        (fun e i x => by rw [merge_search_keyword]; exact mem_sortedUnion)
        posts kv hkv x
    · intro x
      rw [hbind.1]
      exact dedupAcc_field_union Post.time_filter
        (fun e i x => by rw [merge_time_filter]; exact mem_sortedUnion)
        posts kv hkv x

theorem c4_deduplicate_unique_ids_and_union_witness :
    (∀ p ∈ c4Posts, (∃ kw, p.search_keyword = [kw]) ∧ (∃ tf, p.time_filter = [tf]))
    ∧ ((deduplicate_posts c4Posts).map Post.post_id).Nodup := by
  have hnorm : ∀ p ∈ c4Posts,
      (∃ kw, p.search_keyword = [kw]) ∧ (∃ tf, p.time_filter = [tf]) := by
    intro p hp
    simp only [c4Posts, List.mem_cons, List.not_mem_nil, or_false] at hp
    rcases hp with h | h <;> subst h <;>
      exact ⟨⟨_, rfl⟩, ⟨_, rfl⟩⟩
  exact ⟨hnorm, (c4_deduplicate_unique_ids_and_union c4Posts hnorm).1⟩

/-- C9: merging a duplicate into the first-seen canonical record changes only
the `search_keyword` and `time_filter` fields: `merge_post_metadata`
preserves every other field of the existing record, and every record produced
by `deduplicate_posts` agrees on all non-provenance fields with the first
input occurrence of its `post_id`. -/
theorem c9_merge_changes_only_provenance :
    (∀ existing incoming : Post, frameAgrees (merge_post_metadata existing incoming) existing)
    ∧ ∀ (posts : List Post), ∀ q ∈ deduplicate_posts posts,
        ∃ p₀, posts.find? (fun p => p.post_id == q.post_id) = some p₀ ∧ frameAgrees q p₀ := by
  constructor
  · intro e i
    exact merge_frameAgrees i (frameAgrees_refl e)
  · intro posts q hq
    obtain ⟨kv, hkv, rfl⟩ := List.mem_map.mp hq
    have hbind := dedupAcc_binding posts kv hkv
    obtain ⟨p₀, hfind, hframe⟩ := dedupAcc_first_seen posts kv hkv
    refine ⟨p₀, ?_, hframe⟩
    rw [hbind.1]
    exact hfind

theorem c9_merge_changes_only_provenance_witness :
    c9Post ∈ deduplicate_posts [c9Post]
    ∧ ∃ p₀, [c9Post].find? (fun p => p.post_id == c9Post.post_id) = some p₀
        ∧ frameAgrees c9Post p₀ := by
  have hm : c9Post ∈ deduplicate_posts [c9Post] := by
    rw [show deduplicate_posts [c9Post] = [c9Post] from rfl]
    exact List.mem_singleton_self _
  exact ⟨hm, c9_merge_changes_only_provenance.2 [c9Post] c9Post hm⟩

/-- C10: the output of `deduplicate_posts` never contains a record whose
`post_id` is missing or empty, and inputs with a falsy `post_id` are silently
dropped — removing them from the input leaves the output unchanged, so they
are neither passed through nor merged into any retained record. -/
theorem c10_falsy_post_ids_dropped (posts : List Post) :
    (∀ q ∈ deduplicate_posts posts, ∃ id, q.post_id = some id ∧ id ≠ "")
    ∧ deduplicate_posts posts = deduplicate_posts (posts.filter fun p => truthyStr p.post_id) := by
  constructor
  · intro q hq
    obtain ⟨kv, hkv, rfl⟩ := List.mem_map.mp hq
    exact ⟨kv.1, (dedupAcc_binding posts kv hkv).1, (dedupAcc_binding posts kv hkv).2⟩
  · unfold deduplicate_posts dedupAcc
    rw [foldl_dedupStep_filter]

theorem c10_falsy_post_ids_dropped_witness :
    c10Post ∈ deduplicate_posts c10Posts
    ∧ (∃ id, c10Post.post_id = some id ∧ id ≠ "")
    ∧ deduplicate_posts c10Posts
        = deduplicate_posts (c10Posts.filter fun p => truthyStr p.post_id) := by
  have hm : c10Post ∈ deduplicate_posts c10Posts := by
    rw [show deduplicate_posts c10Posts = [c10Post] from rfl]
    exact List.mem_singleton_self _
  exact ⟨hm, (c10_falsy_post_ids_dropped c10Posts).1 c10Post hm,
    (c10_falsy_post_ids_dropped c10Posts).2⟩

/-! ### Comment Extractor (claim C8) -/

theorem replyRecord_depth {c : CommentNode} {r : CommentRecord}
    (h : replyRecord c = some r) : r.depth = 1 := by
  cases c with
  | mk rid rpid rbody rscore rcutc replies =>
    simp only [replyRecord] at h
    split at h
    · have := Option.some.inj h
      rw [← this]
    · exact absurd h (by simp)

theorem extract_foldl_depth (listing : List CommentNode) :
    ∀ acc : List CommentRecord, (∀ r ∈ acc, r.depth = 0 ∨ r.depth = 1) →
      ∀ r ∈ listing.foldl commentStep acc, r.depth = 0 ∨ r.depth = 1 := by
  induction listing with
  | nil => intro acc hacc r hr; exact hacc r hr
  | cons c rest ih =>
    intro acc hacc r hr
    rw [List.foldl_cons] at hr
    refine ih (commentStep acc c) ?_ r hr
    intro r' hr'
    cases c with
    | mk cid cpid cbody cscore ccutc replies =>
      cases replies with
      | none =>
        simp only [commentStep] at hr'
        by_cases ht : truthyStr cid = true
        · rw [if_pos ht] at hr'
          rcases List.mem_append.mp hr' with h | h
          · exact hacc _ h
          · left
            have : r' = { comment_id := cid, parent_id := cpid, body := cbody.getD ""
                          score := cscore.getD 0, created_utc := ccutc, depth := 0 } := by
              simpa using h
            rw [this]
        · rw [if_neg ht] at hr'
          exact hacc _ hr'
      | some children =>
        simp only [commentStep] at hr'
        by_cases ht : truthyStr cid = true
        · rw [if_pos ht] at hr'
          rcases List.mem_append.mp hr' with h | h
          · rcases List.mem_append.mp h with h1 | h2
            · exact hacc _ h1
            · left
              have : r' = { comment_id := cid, parent_id := cpid, body := cbody.getD ""
                            score := cscore.getD 0, created_utc := ccutc, depth := 0 } := by
                simpa using h2
              rw [this]
          · obtain ⟨node, _, hrec⟩ := List.mem_filterMap.mp h
            right
            exact replyRecord_depth hrec
        · rw [if_neg ht] at hr'
          exact hacc _ hr'

theorem replyRecord_strip (c : CommentNode) :
    replyRecord (stripReplies c) = replyRecord c := by
  cases c with
  | mk rid rpid rbody rscore rcutc replies => rfl

theorem filterMap_replyRecord_strip (children : List CommentNode) :
    children.filterMap (fun x => replyRecord (stripReplies x))
      = children.filterMap replyRecord := by
  induction children with
  | nil => rfl
  | cons y ys ihy => simp [List.filterMap_cons, replyRecord_strip, ihy]

theorem commentStep_prune (acc : List CommentRecord) (c : CommentNode) :
    commentStep acc (pruneNode c) = commentStep acc c := by
  cases c with
  | mk cid cpid cbody cscore ccutc replies =>
    cases replies with
    | none => rfl
    | some children =>
      simp only [pruneNode, Option.map_some', commentStep]
      by_cases ht : truthyStr cid = true
      · rw [if_pos ht, if_pos ht, List.filterMap_map]
        exact congrArg _ (filterMap_replyRecord_strip children)
      · rw [if_neg ht, if_neg ht]

theorem extract_foldl_prune (listing : List CommentNode) :
    ∀ acc, (listing.map pruneNode).foldl commentStep acc = listing.foldl commentStep acc := by
  induction listing with
  | nil => intro acc; rfl
  | cons c rest ih =>
    intro acc
    simp only [List.map_cons, List.foldl_cons, commentStep_prune]
    exact ih _

theorem extractComments_prune (listing : List CommentNode) :
    extractComments (listing.map pruneNode) = extractComments listing :=
  extract_foldl_prune listing []

/-- C8: every `CommentRecord` produced by `fetch_post_comments` has depth
exactly 0 (a top-level comment) or exactly 1 (a direct reply), for every
payload shape; and replies nested deeper than one level are never visited —
erasing all depth-≥-2 content from the payload leaves the output unchanged. -/
theorem c8_comment_depth_bounded (payload : CommentsPayload) :
    (∀ r ∈ fetch_post_comments payload, r.depth = 0 ∨ r.depth = 1)
    ∧ fetch_post_comments (prunePayload payload) = fetch_post_comments payload := by
  cases payload with
  | notList => exact ⟨fun r hr => absurd hr (by simp [fetch_post_comments]), rfl⟩
  | list items =>
    rcases items with _ | ⟨first, rest⟩
    · exact ⟨fun r hr => absurd hr (by simp [fetch_post_comments]), rfl⟩
    · rcases rest with _ | ⟨second, rest'⟩
      · exact ⟨fun r hr => absurd hr (by simp [fetch_post_comments]), by
          simp [fetch_post_comments, prunePayload]⟩
      · constructor
        · intro r hr
          exact extract_foldl_depth second.children [] (by simp) r hr
        · simp only [prunePayload, List.map_cons, fetch_post_comments]
          exact extractComments_prune second.children

theorem c8_comment_depth_bounded_witness :
    c8Record ∈ fetch_post_comments c8Payload
    ∧ (c8Record.depth = 0 ∨ c8Record.depth = 1)
    ∧ fetch_post_comments (prunePayload c8Payload) = fetch_post_comments c8Payload := by
  have hm : c8Record ∈ fetch_post_comments c8Payload := by
    rw [show fetch_post_comments c8Payload =
      [c8Record,
       { comment_id := some "c2", parent_id := some "t1_c1", body := "reply", score := 2,
         created_utc := some 11, depth := 1 }] from rfl]
    exact List.mem_cons_self _ _
  exact ⟨hm, (c8_comment_depth_bounded c8Payload).1 c8Record hm,
    (c8_comment_depth_bounded c8Payload).2⟩

end RedditScraper
